import Mathlib

/-!
Verification of the meal-planner core: pin parsing and resolution
(`pins.py`), ingredient-group classification (`ingredient_groups.py`),
recipe filtering (`suggest.py`), and the leftover-dinner sourcing rule of
the plan optimizer/assembler (`planner.py`).

Python strings are embedded as Lean `String`; `str.lower` as
`pyLower`, `str.strip` as `pyStrip`, the `in` substring test as
an explicit character-list scan.  Python `float` nutrition values are
embedded as `Rat` (the code only stores and compares them in the parts
verified here).  Fallible code returns `Except`; the payloads of the
structured error values are exactly the data interpolated into the
corresponding Python `ValueError` messages.
-/

instance {ε α : Type} [DecidableEq ε] [DecidableEq α] : DecidableEq (Except ε α)
  | .error e, .error f =>
    if h : e = f then isTrue (congrArg Except.error h)
    else isFalse (fun hh => h (Except.error.inj hh))
  | .error _, .ok _ => isFalse (fun hh => Except.noConfusion hh)
  | .ok _, .error _ => isFalse (fun hh => Except.noConfusion hh)
  | .ok a, .ok b =>
    if h : a = b then isTrue (congrArg Except.ok h)
    else isFalse (fun hh => h (Except.ok.inj hh))

namespace MealPlanner

/-! ## Python string primitives -/

/-- The whitespace characters stripped by Python's `str.strip()`
(the ASCII ones; the planner's inputs are ASCII). -/
def pyIsSpace (c : Char) : Bool :=
  c == ' ' || c == '\t' || c == '\n' || c == '\r' || c == '\x0b' || c == '\x0c'

/-- Python's `str.lower()` (ASCII case folding, which covers every
string the planner compares). -/
def pyLower (s : String) : String :=
  String.mk (s.data.map Char.toLower)

/-- Python's `str.strip()`: drop leading and trailing whitespace. -/
def pyStrip (s : String) : String :=
  String.mk (((s.data.dropWhile pyIsSpace).reverse.dropWhile pyIsSpace).reverse)

/-- `isPrefixList needle hay`: `needle` is a prefix of `hay` (character lists). -/
def isPrefixList : List Char → List Char → Bool
  | [], _ => true
  | _ :: _, [] => false
  | a :: as_, b :: bs => a == b && isPrefixList as_ bs

/-- `containsList needle hay`: Python's substring test `needle in hay`
on character lists. -/
def containsList (needle : List Char) : List Char → Bool
  | [] => needle.isEmpty
  | c :: cs => isPrefixList needle (c :: cs) || containsList needle cs

/-- Python's `needle in hay` substring test on strings. -/
def strContains (hay needle : String) : Bool :=
  containsList needle.toList hay.toList

/-- Split a character list at the first `':'`, if any. -/
def splitFirstColon : List Char → Option (List Char × List Char)
  | [] => none
  | c :: cs =>
    if c = ':' then some ([], cs)
    else
      match splitFirstColon cs with
      | none => none
      | some (a, b) => some (c :: a, b)

/-- Python's `raw.split(":", maxsplit=2)`: at most three parts, the third
keeps any further colons. -/
def splitColonMax2 (raw : String) : List String :=
  match splitFirstColon raw.toList with
  | none => [raw]
  | some (a, rest) =>
    match splitFirstColon rest with
    | none => [String.mk a, String.mk rest]
    | some (b, rest2) => [String.mk a, String.mk b, String.mk rest2]

/-- Python truthiness of an optional string (`None` and `""` are falsy). -/
def strTruthy : Option String → Bool
  | none => false
  | some s => s ≠ ""

/-- Python truthiness of an optional list (`None` and `[]` are falsy). -/
def listTruthy {α : Type} : Option (List α) → Bool
  | none => false
  | some l => !l.isEmpty

/-! ## `models.py` — data model

`Recipe` carries the fields consumed by the components verified here
(`name`, nutrition, timing, classification).  The remaining dataclass
fields of `models.py` (`file_path`, `fat_g`, `carbs_g`, `fiber_g`,
`servings`, `prep_time_min`, `cook_time_min`, `cooking_method`, `rating`,
`quick_recipe`, `tried`, `favorite`, `last_made`, `parsed_ingredients`,
`ingredients_hash`, `raw_ingredients`) are never read by the embedded
code and are omitted.  Defaults mirror the dataclass defaults. -/

/-- `models.py` `PrepStyle`. -/
inductive PrepStyle
  | batch
  | fresh
  | leftover
deriving DecidableEq

/-- `models.py` `MealType`: the enum declares exactly the members
BREAKFAST, LUNCH and DINNER. -/
inductive MealType
  | breakfast
  | lunch
  | dinner
deriving DecidableEq

/-- The `.value` string of a `MealType` member. -/
def MealType.value : MealType → String
  | .breakfast => "breakfast"
  | .lunch => "lunch"
  | .dinner => "dinner"

/-- Python `MealType(meal_str)`: succeeds exactly on a declared member's
value. -/
def MealType.ofValue : String → Option MealType
  | "breakfast" => some .breakfast
  | "lunch" => some .lunch
  | "dinner" => some .dinner
  | _ => none

/-- `models.py` `Recipe` (the fields used by the verified components). -/
structure Recipe where
  name : String
  calories : Option Rat := none
  protein_g : Option Rat := none
  total_time_min : Option Int := none
  meal_type : Option String := none
  cuisine : Option String := none
  main_ingredient : Option String := none
  dietary_tags : List String := []
  categories : List String := []
deriving DecidableEq

/-- Field names of the `MealSlot` dataclass as declared in
`models.py` lines 69-78. -/
def mealSlotFields : List String :=
  ["day", "day_name", "meal_type", "prep_style",
   "recipe", "servings", "calories", "protein_g"]

/-- Keyword arguments passed to the `MealSlot` constructor by plan
assembly in `planner.py` lines 560-572 (the breakfast slot; the dinner,
lunch and snack slot constructions at lines 594-606, 630-642 and 649-661
pass the same keyword set). -/
def plannerMealSlotKwargs : List String :=
  ["day", "day_name", "meal_type", "prep_style",
   "recipe", "servings", "calories", "protein_g", "pinned"]

/-! ## `suggest.py` — recipe filtering -/

/-- `suggest.py` `MEAL_TYPE_MAP`: frontmatter aliases per meal type. -/
def MEAL_TYPE_MAP : List (String × List String) :=
  [("breakfast", ["breakfast"]),
   ("lunch", ["lunch", "main course", "soup"]),
   ("dinner", ["dinner", "main course", "soup", "curry"]),
   ("snack", ["snack", "appetizer", "dessert", "side", "side dish"])]

/-- Python `dict.get` on an association list with distinct keys. -/
def assocGet {α : Type} (m : List (String × α)) (k : String) : Option α :=
  match m.find? (fun p => p.1 == k) with
  | some p => some p.2
  | none => none

/-- `suggest.py` `matches_meal_type`. -/
def matches_meal_type (recipe : Recipe) (meal_type : String) : Bool :=
  if meal_type = "" then true
  else
    let mt := pyLower meal_type
    let valid_types := (assocGet MEAL_TYPE_MAP mt).getD [mt]
    (match recipe.meal_type with
     | some m => m ≠ "" && valid_types.contains (pyLower m)
     | none => false)
    || recipe.categories.any (fun cat => valid_types.contains (pyLower cat))

/-- `suggest.py` `matches_dietary_tags`. -/
def matches_dietary_tags (recipe : Recipe) (required_tags : List String) : Bool :=
  if required_tags = [] then true
  else
    let recipe_tags := recipe.dietary_tags.map pyLower
    required_tags.all (fun t => recipe_tags.contains (pyLower t))

/-- `suggest.py` `matches_cuisine`. -/
def matches_cuisine (recipe : Recipe) (cuisine : String) : Bool :=
  if cuisine = "" then true
  else
    match recipe.cuisine with
    | none => false
    | some c => if c = "" then false else strContains (pyLower c) (pyLower cuisine)

/-- `suggest.py` `matches_time`: no limit or no total-time data passes;
otherwise `total <= max_time`. -/
def matches_time (recipe : Recipe) (max_time : Option Int) : Bool :=
  match max_time with
  | none => true
  | some limit =>
    match recipe.total_time_min with
    | none => true
    | some total => total ≤ limit

/-- `suggest.py` `is_excluded`. -/
def is_excluded (recipe : Recipe) (exclude_names : List String) : Bool :=
  if exclude_names = [] then false
  else
    let name_lower := pyLower recipe.name
    exclude_names.any (fun ex => strContains name_lower (pyLower ex))

/-- The per-recipe test of `suggest.py` `filter_recipes` (the chain of
`continue` guards of the loop body). -/
def passes_filters (r : Recipe) (meal_type : Option String)
    (max_time : Option Int) (cuisine : Option String)
    (dietary_tags : Option (List String)) (exclude : Option (List String))
    (min_protein : Option Rat) (max_calories : Option Rat) : Bool :=
  (if strTruthy meal_type then matches_meal_type r (meal_type.getD "") else true)
  && matches_time r max_time
  && (if strTruthy cuisine then matches_cuisine r (cuisine.getD "") else true)
  && (if listTruthy dietary_tags then matches_dietary_tags r (dietary_tags.getD []) else true)
  && (if listTruthy exclude then !is_excluded r (exclude.getD []) else true)
  && (match min_protein, r.protein_g with
      | some mp, some p => !(p < mp)
      | _, _ => true)
  && (match max_calories, r.calories with
      | some mc, some c => !(c > mc)
      | _, _ => true)

/-- `suggest.py` `filter_recipes`: keep the recipes passing every hard
filter. -/
def filter_recipes (recipes : List Recipe) (meal_type : Option String)
    (max_time : Option Int) (cuisine : Option String)
    (dietary_tags : Option (List String)) (exclude : Option (List String))
    (min_protein : Option Rat) (max_calories : Option Rat) : List Recipe :=
  recipes.filter (fun r =>
    passes_filters r meal_type max_time cuisine dietary_tags exclude
      min_protein max_calories)

/-! ## `ingredient_groups.py` — ingredient-group classification -/

/-- `ingredient_groups.py` `INGREDIENT_GROUP_MAP`: raw (lowercased)
`main_ingredient` values to canonical group names. -/
def INGREDIENT_GROUP_MAP : List (String × String) :=
  [("chicken", "poultry"), ("turkey", "poultry"),
   ("chicken breast", "poultry"), ("chicken thigh", "poultry"),
   ("chicken thighs", "poultry"), ("chicken drumsticks", "poultry"),
   ("chicken wings", "poultry"), ("ground turkey", "poultry"),
   ("ground chicken", "poultry"),
   ("beef", "beef"), ("ground beef", "beef"), ("steak", "beef"),
   ("beef stew meat", "beef"), ("corned beef", "beef"),
   ("pork", "pork"), ("pork chops", "pork"), ("pork loin", "pork"),
   ("ground pork", "pork"), ("ham", "pork"), ("bacon", "pork"),
   ("sausage", "pork"), ("chorizo", "pork"), ("bratwurst", "pork"),
   ("salmon", "seafood"), ("shrimp", "seafood"), ("fish", "seafood"),
   ("tilapia", "seafood"), ("tuna", "seafood"), ("crab", "seafood"),
   ("cod", "seafood"),
   ("beans", "legumes"), ("black beans", "legumes"),
   ("chickpeas", "legumes"), ("lentils", "legumes"),
   ("kidney beans", "legumes"), ("pinto beans", "legumes"),
   ("white beans", "legumes"), ("black-eyed peas", "legumes"),
   ("tofu", "tofu"), ("tempeh", "tofu"),
   ("pasta", "pasta"), ("spaghetti", "pasta"), ("rigatoni", "pasta"),
   ("penne", "pasta"), ("ravioli", "pasta"), ("tortellini", "pasta"),
   ("gnocchi", "pasta"), ("noodles", "pasta"),
   ("rice", "grains"), ("quinoa", "grains"), ("barley", "grains"),
   ("farro", "grains"), ("oats", "grains"),
   ("eggs", "eggs"), ("egg", "eggs")]

/-- `ingredient_groups.py` `normalize_ingredient_group`. -/
def normalize_ingredient_group (main_ingredient : Option String) : Option String :=
  match main_ingredient with
  | none => none
  | some s => assocGet INGREDIENT_GROUP_MAP (pyStrip (pyLower s))

/-- The classification keys of `build_ingredient_group_table`.  The
Python code builds string dict keys `"group:" + name`, `"raw:" + value`
and `"none:" + str(next_id)`; the three prefixed shapes never collide, so
they are embedded as the three constructors of this inductive. -/
inductive GroupKey
  | group : String → GroupKey
  | raw : String → GroupKey
  | noneKey : Nat → GroupKey
deriving DecidableEq

/-- Python dict lookup on the `group_key_to_id` association list. -/
def lookupGroup : List (GroupKey × Nat) → GroupKey → Option Nat
  | [], _ => none
  | p :: rest, k => if p.1 == k then some p.2 else lookupGroup rest k

/-- Key computed for one candidate in the loop body of
`build_ingredient_group_table` (lines 104-113): canonical group name,
else the lowercased/stripped raw ingredient, else a `none` key stamped
with the current `next_id`. -/
def group_key_at (recipe : Recipe) (next_id : Nat) : GroupKey :=
  match normalize_ingredient_group recipe.main_ingredient with
  | some group => .group group
  | none =>
    match recipe.main_ingredient with
    | some raw => .raw (pyStrip (pyLower raw))
    | none => .noneKey next_id

/-- The loop of `build_ingredient_group_table`: thread the
`group_key_to_id` map and `next_id` counter through the candidates,
emitting each candidate's group id. -/
def group_table_go : List Recipe → List (GroupKey × Nat) → Nat →
    List Nat × Nat × List (GroupKey × Nat)
  | [], m, next_id => ([], next_id, m)
  | r :: rs, m, next_id =>
    let key := group_key_at r next_id
    match lookupGroup m key with
    | some v =>
      let rest := group_table_go rs m next_id
      (v :: rest.1, rest.2)
    | none =>
      let rest := group_table_go rs (m ++ [(key, next_id)]) (next_id + 1)
      (next_id :: rest.1, rest.2)

/-- `ingredient_groups.py` `build_ingredient_group_table`: returns
`(group_ids, num_groups, group_key_to_id)`. -/
def build_ingredient_group_table (candidates : List Recipe) :
    List Nat × Nat × List (GroupKey × Nat) :=
  group_table_go candidates [] 0

/-- The part of the classification key that depends only on the recipe
(lines 104-110): `none` exactly when the recipe has no `main_ingredient`
and its key is instead a per-position `none` key. -/
def pure_group_key (recipe : Recipe) : Option GroupKey :=
  match normalize_ingredient_group recipe.main_ingredient with
  | some group => some (.group group)
  | none =>
    match recipe.main_ingredient with
    | some raw => some (.raw (pyStrip (pyLower raw)))
    | none => none

/-! ## `pins.py` — pin parsing, validation and resolution -/

/-- `pins.py` `DAY_NAMES_LOWER`. -/
def DAY_NAMES_LOWER : List String :=
  ["monday", "tuesday", "wednesday", "thursday",
   "friday", "saturday", "sunday"]

/-- `pins.py` `PinPattern`. -/
inductive PinPattern
  | single
  | all
  | even
  | odd
deriving DecidableEq

/-- `pins.py` `PinSpec`: a parsed pin specification. -/
structure PinSpec where
  day : Option Nat
  meal_type : MealType
  recipe_query : String
  pattern : PinPattern
deriving DecidableEq

/-- `pins.py` `ResolvedPin`: a pin with recipe found and candidate index
determined. -/
structure ResolvedPin where
  days : List Nat
  meal_type : MealType
  recipe : Recipe
  candidate_index : Nat
  injected : Bool := false
deriving DecidableEq

/-- The `ValueError`s raised by `parse_pin`, with the data interpolated
into each message. -/
inductive PinParseError
  | invalidFormat : String → PinParseError
  | emptyRecipe : String → PinParseError
  | unknownDay : String → PinParseError
  | unknownMeal : String → PinParseError
deriving DecidableEq

/-- `pins.py` `parse_pin`: parse `day:meal:Recipe Name` into a
`PinSpec`. -/
def parse_pin (raw : String) : Except PinParseError PinSpec :=
  match splitColonMax2 raw with
  | [day_part, meal_part, recipe_part] =>
    let day_str := pyLower (pyStrip day_part)
    let meal_str := pyLower (pyStrip meal_part)
    let recipe_str := pyStrip recipe_part
    if recipe_str = "" then .error (.emptyRecipe raw)
    else
      let parsedDay : Except PinParseError (PinPattern × Option Nat) :=
        if day_str = "all" then .ok (.all, none)
        else if day_str = "even" then .ok (.even, none)
        else if day_str = "odd" then .ok (.odd, none)
        else if DAY_NAMES_LOWER.contains day_str then
          .ok (.single, some (DAY_NAMES_LOWER.indexOf day_str))
        else .error (.unknownDay day_str)
      match parsedDay with
      | .error e => .error e
      | .ok (pattern, day) =>
        match MealType.ofValue meal_str with
        | none => .error (.unknownMeal meal_str)
        | some meal_type =>
          .ok { day := day, meal_type := meal_type,
                recipe_query := recipe_str, pattern := pattern }
  | _ => .error (.invalidFormat raw)

/-- `pins.py` `expand_pin_days`: expand a pin pattern into concrete day
indices. -/
def expand_pin_days (pin : PinSpec) (num_days : Nat) : List Nat :=
  match pin.pattern with
  | .single =>
    match pin.day with
    | some d => if d < num_days then [d] else []
    | none => []
  | .all => List.range num_days
  | .even => (List.range num_days).filter (fun d => d % 2 == 0)
  | .odd => (List.range num_days).filter (fun d => d % 2 == 1)

/-- The `ValueError`s raised during pin resolution (`find_recipe` and
`resolve_pins`), with the data interpolated into each message.  A
conflict carries the day index, the meal-type value, and the two
conflicting recipe names that the Python message formats (the message
renders the day index through `DAY_NAMES`). -/
inductive ResolveError
  | batchMode : PinPattern → String → ResolveError
  | notFound : String → ResolveError
  | conflict : Nat → String → String → String → ResolveError
deriving DecidableEq

/-- First element of minimal measure, earliest on ties: the head of the
list after Python's stable `matches.sort(key=len(name))`. -/
def pickShortest {α : Type} (measure : α → Nat) : List α → Option α
  | [] => none
  | x :: xs =>
    match pickShortest measure xs with
    | none => some x
    | some y => if measure x ≤ measure y then some x else some y

/-- `pins.py` `find_recipe`: exact match in candidates, substring in
candidates, exact in the corpus (inject), substring in the corpus
(inject).  The Python function mutates `candidates` in place; the
embedding returns the (possibly extended) candidate list as a fourth
component.  Substring stages take `matches[0]` after a stable sort by
name length, embedded as `pickShortest`. -/
def find_recipe (query : String) (candidates all_recipes : List Recipe) :
    Except ResolveError (Recipe × Nat × Bool × List Recipe) :=
  let query_lower := pyLower query
  match (candidates.enum.find? (fun p => pyLower p.2.name == query_lower)) with
  | some (i, r) => .ok (r, i, false, candidates)
  | none =>
    let matches_cand := candidates.enum.filter
      (fun p => strContains (pyLower p.2.name) query_lower)
    match pickShortest (fun p => p.2.name.length) matches_cand with
    | some (i, r) => .ok (r, i, false, candidates)
    | none =>
      match all_recipes.find? (fun r => pyLower r.name == query_lower) with
      | some r => .ok (r, candidates.length, true, candidates ++ [r])
      | none =>
        let matches_all := all_recipes.filter
          (fun r => strContains (pyLower r.name) query_lower)
        match pickShortest (fun r => r.name.length) matches_all with
        | some r => .ok (r, candidates.length, true, candidates ++ [r])
        | none => .error (.notFound query)

/-- One `(day, meal-type value, recipe name)` assignment claimed by a
resolved pin. -/
def slotAssigns (resolved : List ResolvedPin) : List (Nat × String × String) :=
  resolved.flatMap (fun rpin =>
    rpin.days.map (fun d => (d, rpin.meal_type.value, rpin.recipe.name)))

/-- Python dict lookup on the `slot_map` association list keyed by
`(day, meal-type value)`. -/
def slotMapGet : List ((Nat × String) × String) → (Nat × String) →
    Option String
  | [], _ => none
  | p :: rest, k => if p.1 == k then some p.2 else slotMapGet rest k

/-- Python `slot_map[key] = name` (insert or replace). -/
def slotMapSet (m : List ((Nat × String) × String)) (k : Nat × String)
    (name : String) : List ((Nat × String) × String) :=
  match m with
  | [] => [(k, name)]
  | p :: rest =>
    if p.1 == k then (p.1, name) :: rest else p :: slotMapSet rest k name

/-- The conflict-detection loop of `resolve_pins` (lines 193-207) over
the flattened assignments: raise on a key already bound to a different
name, otherwise record the assignment and continue. -/
def conflictFold : List (Nat × String × String) →
    List ((Nat × String) × String) → Except ResolveError Unit
  | [], _ => .ok ()
  | (d, meal, name) :: rest, slot_map =>
    match slotMapGet slot_map (d, meal) with
    | some existing =>
      if existing ≠ name then .error (.conflict d meal existing name)
      else conflictFold rest (slotMapSet slot_map (d, meal) name)
    | none => conflictFold rest (slotMapSet slot_map (d, meal) name)

/-- Conflict detection of `resolve_pins`: same `(day, meal_type)` with
different recipes is an error. -/
def detect_conflicts (resolved : List ResolvedPin) : Except ResolveError Unit :=
  conflictFold (slotAssigns resolved) []

/-- The loop body of `resolve_pins` (lines 164-191) for one pin:
batch-breakfast validation, day expansion, candidate lookup (the
`candidates_by_meal` dict is updated only when the meal key is present,
as in Python, where a missing key yields a fresh list whose mutation is
dropped). -/
def resolveOnePin (batch_breakfast : Bool) (num_days : Nat)
    (all_recipes : List Recipe)
    (candidates_by_meal : List (String × List Recipe)) (pin : PinSpec) :
    Except ResolveError (ResolvedPin × List (String × List Recipe)) :=
  if pin.meal_type = .breakfast ∧ batch_breakfast = true ∧ pin.pattern ≠ .all then
    .error (.batchMode pin.pattern pin.recipe_query)
  else
    let days := expand_pin_days pin num_days
    let meal_key := pin.meal_type.value
    let candidates := (assocGet candidates_by_meal meal_key).getD []
    match find_recipe pin.recipe_query candidates all_recipes with
    | .error e => .error e
    | .ok (recipe, idx, injected, candidates') =>
      let pools' :=
        if (assocGet candidates_by_meal meal_key).isSome then
          candidates_by_meal.map (fun p =>
            if p.1 == meal_key then (p.1, candidates') else p)
        else candidates_by_meal
      .ok ({ days := days, meal_type := pin.meal_type, recipe := recipe,
             candidate_index := idx, injected := injected }, pools')

/-- The resolution loop of `resolve_pins`, threading the mutated
candidate pools. -/
def resolvePinsGo (batch_breakfast : Bool) (num_days : Nat)
    (all_recipes : List Recipe) :
    List PinSpec → List (String × List Recipe) →
    Except ResolveError (List ResolvedPin × List (String × List Recipe))
  | [], pools => .ok ([], pools)
  | pin :: rest, pools =>
    match resolveOnePin batch_breakfast num_days all_recipes pools pin with
    | .error e => .error e
    | .ok (rpin, pools') =>
      match resolvePinsGo batch_breakfast num_days all_recipes rest pools' with
      | .error e => .error e
      | .ok (rpins, pools'') => .ok (rpin :: rpins, pools'')

/-- `pins.py` `resolve_pins`: resolve all pins, then detect conflicts.
Returns the resolved pins together with the (possibly extended)
candidate pools that Python mutates in place. -/
def resolve_pins (pins : List PinSpec)
    (candidates_by_meal : List (String × List Recipe))
    (all_recipes : List Recipe) (num_days : Nat)
    (batch_breakfast : Bool := false) :
    Except ResolveError (List ResolvedPin × List (String × List Recipe)) :=
  match resolvePinsGo batch_breakfast num_days all_recipes pins candidates_by_meal with
  | .error e => .error e
  | .ok (resolved, pools) =>
    match detect_conflicts resolved with
    | .error e => .error e
    | .ok () => .ok (resolved, pools)

/-! ## `planner.py` — leftover-dinner sourcing

`build_meal_plan` computes, both while adding the model's leftover-dinner
terms (lines 330-340) and again during plan assembly (lines 581-592), the
"source" cook day of a non-cook day `d`: the first cook day below `d` in
a descending scan of `dinner_recipe_vars.keys()`, wrapping to the
latest cook day when none precedes `d`.  `cook_vars` below stands for
those dictionary keys. -/

/-- Descending insertion of one element (used to model Python's
`sorted(keys, reverse=True)`). -/
def insertDesc (x : Nat) : List Nat → List Nat
  | [] => [x]
  | y :: ys => if y ≤ x then x :: y :: ys else y :: insertDesc x ys

/-- Python's `sorted(keys, reverse=True)`: the keys in descending
order. -/
def sortedDesc (l : List Nat) : List Nat :=
  l.foldr insertDesc []

/-- Python's `max(iterable)` on a list of day indices, `none` when the
list is empty (where Python raises `ValueError`). -/
def listMax : List Nat → Option Nat
  | [] => none
  | x :: xs =>
    match listMax xs with
    | none => some x
    | some m => some (max x m)

/-- Model construction (planner.py lines 330-340): nearest cook day
strictly before `d`, else `max(cook_vars)` if any cook day exists, else
`None` (in which case the model adds no leftover-dinner terms). -/
def prev_cook_model (cook_vars : List Nat) (d : Nat) : Option Nat :=
  match (sortedDesc cook_vars).find? (fun cd => cd < d) with
  | some cd => some cd
  | none => listMax cook_vars

/-- Plan assembly (planner.py lines 581-588): the same descending scan,
then an unguarded `max(dinner_recipe_vars.keys())` — Python would raise
on an empty key set, embedded as `none`. -/
def prev_cook_assembler (cook_vars : List Nat) (d : Nat) : Option Nat :=
  match (sortedDesc cook_vars).find? (fun cd => cd < d) with
  | some cd => some cd
  | none => listMax cook_vars

/-- Plan assembly lines 581-592 for a non-cook day's dinner slot: the
recipe shown is `dinner_candidates[solver value of the source day's
decision]` and the slot is tagged `PrepStyle.LEFTOVER`.  `sol` maps a
cook day to the solver's chosen candidate index for it. -/
def leftover_dinner_choice (cook_vars : List Nat) (sol : Nat → Nat)
    (dinner_candidates : List Recipe) (d : Nat) :
    Option (Recipe × PrepStyle) :=
  match prev_cook_assembler cook_vars d with
  | none => none
  | some prev_cook =>
    (dinner_candidates.get? (sol prev_cook)).map (fun r => (r, PrepStyle.leftover))

/-! ## Claim C1 — pin provenance flag on meal slots -/

/-- C1: plan assembly constructs every `MealSlot` with a `pinned` keyword
argument, but the `MealSlot` dataclass of `models.py` declares no
`pinned` field — the boolean marking pin-constrained slots that the
claim (and the repository's own tests) require is missing from the data
model, so slot construction raises `TypeError` at runtime. -/
theorem C1_meal_slot_pinned_field_missing :
    "pinned" ∈ plannerMealSlotKwargs ∧ "pinned" ∉ mealSlotFields := by
  decide

/-! ## Claim C2 — pin-string parsing -/

/-- C2: `parse_pin` rejects the meal token `snack` (the `MealType` enum
of `models.py` declares only BREAKFAST, LUNCH and DINNER), although the
claim — and the repository's own test suite, which parses
`odd:snack:Granola Bar` — require all four of breakfast, lunch, dinner
and snack to be accepted.  The same pin with `dinner` parses fine, so
the failure is specific to the missing enum member. -/
theorem C2_parse_pin_rejects_snack :
    parse_pin "odd:snack:Granola Bar" = .error (.unknownMeal "snack") ∧
    parse_pin "odd:dinner:Granola Bar" =
      .ok { day := none, meal_type := .dinner,
            recipe_query := "Granola Bar", pattern := .odd } := by
  constructor <;> rfl

/-! ## Claim C9 — max-time filter -/

/-- C9: a recipe with no total-time data passes `matches_time` for every
limit; a recipe with total time present passes exactly when its total
time is at most the limit; and `filter_recipes` with only a max-time
filter set keeps exactly the recipes passing `matches_time` (absence is
never grounds for exclusion). -/
theorem C9_time_filter (r : Recipe) (mt : Option Int) (L t : Int)
    (recipes : List Recipe) :
    (r.total_time_min = none → matches_time r mt = true) ∧
    (r.total_time_min = some t → matches_time r (some L) = decide (t ≤ L)) ∧
    (filter_recipes recipes none mt none none none none none
       = recipes.filter (fun x => matches_time x mt)) := by
  refine ⟨fun h => ?_, fun h => ?_, ?_⟩
  · unfold matches_time
    rw [h]
    cases mt <;> rfl
  · unfold matches_time
    rw [h]
  · unfold filter_recipes
    apply List.filter_congr
    intro x _
    unfold passes_filters strTruthy listTruthy
    simp

/-- Witness for C9 at concrete recipes: a recipe without time data passes
a 30-minute filter, and a 45-minute recipe fails it. -/
theorem C9_time_filter_witness :
    matches_time { name := "NoTime" } (some 30) = true ∧
    matches_time { name := "Slow", total_time_min := some 45 } (some 30) = false := by
  constructor
  · exact (C9_time_filter { name := "NoTime" } (some 30) 30 0 []).1 rfl
  · have h := (C9_time_filter { name := "Slow", total_time_min := some 45 }
      (some 30) 30 45 []).2.1 rfl
    rw [h]
    decide

/-! ## Claim C3 — day-pattern expansion -/

/-- C3: expanding a parsed pin over an `N`-day plan yields: SINGLE — the
one concrete day when its index is below `N`, else nothing; ALL — every
day `0..N-1`; EVEN — exactly the days with even index; ODD — exactly the
days with odd index. -/
theorem C3_expand_pin_days (pin : PinSpec) (N d k : Nat) :
    (pin.pattern = .single → pin.day = some k →
       expand_pin_days pin N = if k < N then [k] else []) ∧
    (pin.pattern = .all → (d ∈ expand_pin_days pin N ↔ d < N)) ∧
    (pin.pattern = .even → (d ∈ expand_pin_days pin N ↔ d < N ∧ d % 2 = 0)) ∧
    (pin.pattern = .odd → (d ∈ expand_pin_days pin N ↔ d < N ∧ d % 2 = 1)) := by
  refine ⟨fun hp hd => ?_, fun hp => ?_, fun hp => ?_, fun hp => ?_⟩ <;>
    unfold expand_pin_days <;> rw [hp]
  · rw [hd]
  · exact List.mem_range
  · simp [List.mem_filter, List.mem_range, and_comm]
  · simp [List.mem_filter, List.mem_range, and_comm]

/-- Witness for C3 at concrete pins on a 7-day plan. -/
theorem C3_expand_pin_days_witness :
    expand_pin_days { day := some 2, meal_type := .dinner,
                      recipe_query := "X", pattern := .single } 7 = [2] ∧
    (3 ∈ expand_pin_days { day := none, meal_type := .dinner,
                           recipe_query := "X", pattern := .odd } 7
       ↔ 3 < 7 ∧ 3 % 2 = 1) := by
  constructor
  · have h := (C3_expand_pin_days { day := some 2, meal_type := .dinner,
                                    recipe_query := "X", pattern := .single }
      7 0 2).1 rfl rfl
    rw [h]
    rfl
  · exact (C3_expand_pin_days { day := none, meal_type := .dinner,
                                recipe_query := "X", pattern := .odd }
      7 3 0).2.2.2 rfl

/-! ## Claim C5 — candidate-pool injection round-trip -/

/-- Case analysis on a successful `find_recipe`: an injected lookup
appended the recipe and returned the old pool length as index; a
pool-resolved lookup left the pool untouched. -/
theorem find_recipe_ok_cases {q : String} {cs as : List Recipe} {r : Recipe}
    {i : Nat} {inj : Bool} {cs' : List Recipe}
    (h : find_recipe q cs as = .ok (r, i, inj, cs')) :
    (inj = true → cs' = cs ++ [r] ∧ i = cs.length) ∧
    (inj = false → cs' = cs) := by
  simp only [find_recipe] at h
  split at h
  · simp only [Except.ok.injEq, Prod.mk.injEq] at h
    obtain ⟨h1, h2, h3, h4⟩ := h
    subst h1 h2 h4
    exact ⟨fun ht => absurd (h3.trans ht) (by simp), fun _ => rfl⟩
  · split at h
    · simp only [Except.ok.injEq, Prod.mk.injEq] at h
      obtain ⟨h1, h2, h3, h4⟩ := h
      subst h1 h2 h4
      exact ⟨fun ht => absurd (h3.trans ht) (by simp), fun _ => rfl⟩
    · split at h
      · simp only [Except.ok.injEq, Prod.mk.injEq] at h
        obtain ⟨h1, h2, h3, h4⟩ := h
        subst h1 h2 h4
        exact ⟨fun _ => ⟨rfl, rfl⟩, fun hf => absurd (h3.trans hf) (by simp)⟩
      · split at h
        · simp only [Except.ok.injEq, Prod.mk.injEq] at h
          obtain ⟨h1, h2, h3, h4⟩ := h
          subst h1 h2 h4
          exact ⟨fun _ => ⟨rfl, rfl⟩, fun hf => absurd (h3.trans hf) (by simp)⟩
        · exact absurd h (by simp)

/-- C5: a lookup that resolves only against the full corpus (injection)
grows the candidate pool by exactly one and returns the index one less
than the new pool length; a lookup resolved within the pool leaves it
unchanged. -/
theorem C5_injection_roundtrip (q : String) (cs as : List Recipe)
    (r : Recipe) (i : Nat) (inj : Bool) (cs' : List Recipe)
    (h : find_recipe q cs as = .ok (r, i, inj, cs')) :
    (inj = true → cs'.length = cs.length + 1 ∧ i + 1 = cs'.length) ∧
    (inj = false → cs' = cs) := by
  obtain ⟨h1, h2⟩ := find_recipe_ok_cases h
  refine ⟨fun ht => ?_, h2⟩
  obtain ⟨hcs, hi⟩ := h1 ht
  subst hcs hi
  simp

/-- Breakfast-only pool used by the C5 witness. -/
def c5cands : List Recipe :=
  [{ name := "Breakfast Slop" }, { name := "Blueberry Kefir Smoothie" }]

/-- The recipe injected by the C5 witness. -/
def c5caesar : Recipe := { name := "Caesar Salad" }

/-- Corpus used by the C5 witness. -/
def c5all : List Recipe := c5cands ++ [c5caesar]

/-- Witness for C5: resolving `Caesar Salad` against a two-recipe pool
injects it, the pool grows to three, and the returned index is 2. -/
theorem C5_injection_roundtrip_witness :
    (c5cands ++ [c5caesar]).length = c5cands.length + 1 ∧
    2 + 1 = (c5cands ++ [c5caesar]).length := by
  have h : find_recipe "Caesar Salad" c5cands c5all =
      .ok (c5caesar, 2, true, c5cands ++ [c5caesar]) := by decide
  exact (C5_injection_roundtrip "Caesar Salad" c5cands c5all
    c5caesar 2 true (c5cands ++ [c5caesar]) h).1 rfl

/-! ## Claim C8 — leftover-dinner source day -/

theorem mem_insertDesc {x a : Nat} : ∀ {l : List Nat},
    a ∈ insertDesc x l ↔ a = x ∨ a ∈ l := by
  intro l
  induction l with
  | nil => simp [insertDesc]
  | cons y ys ih =>
    by_cases hyx : y ≤ x
    · simp [insertDesc, hyx]
    · simp only [insertDesc, if_neg hyx, List.mem_cons, ih]
      tauto

theorem mem_sortedDesc {a : Nat} : ∀ {l : List Nat},
    a ∈ sortedDesc l ↔ a ∈ l := by
  intro l
  induction l with
  | nil => simp [sortedDesc]
  | cons y ys ih =>
    simp only [sortedDesc, List.foldr_cons, List.mem_cons]
    rw [show List.foldr insertDesc [] ys = sortedDesc ys from rfl] at *
    rw [mem_insertDesc, ih]

theorem pairwise_insertDesc {x : Nat} : ∀ {l : List Nat},
    l.Pairwise (fun a b => b ≤ a) →
    (insertDesc x l).Pairwise (fun a b => b ≤ a) := by
  intro l
  induction l with
  | nil => simp [insertDesc]
  | cons y ys ih =>
    intro hp
    obtain ⟨hy, hys⟩ := List.pairwise_cons.mp hp
    by_cases hyx : y ≤ x
    · rw [insertDesc, if_pos hyx]
      refine List.pairwise_cons.mpr ⟨?_, hp⟩
      intro b hb
      rcases List.mem_cons.mp hb with hb | hb
      · omega
      · exact le_trans (hy b hb) hyx
    · rw [insertDesc, if_neg hyx]
      refine List.pairwise_cons.mpr ⟨?_, ih hys⟩
      intro b hb
      rcases mem_insertDesc.mp hb with hb | hb
      · omega
      · exact hy b hb

theorem pairwise_sortedDesc : ∀ (l : List Nat),
    (sortedDesc l).Pairwise (fun a b => b ≤ a) := by
  intro l
  induction l with
  | nil => simp [sortedDesc]
  | cons y ys ih => exact pairwise_insertDesc ih

theorem find?_split {p : Nat → Bool} : ∀ {l : List Nat} {x : Nat},
    l.find? p = some x →
    ∃ l₁ l₂, l = l₁ ++ x :: l₂ ∧ (∀ y ∈ l₁, p y = false) ∧ p x = true := by
  intro l
  induction l with
  | nil => intro x h; simp [List.find?] at h
  | cons a l ih =>
    intro x h
    cases hpa : p a with
    | true =>
      rw [List.find?_cons_of_pos _ hpa] at h
      obtain rfl : a = x := Option.some.inj h
      exact ⟨[], l, rfl, by simp, hpa⟩
    | false =>
      rw [List.find?_cons_of_neg _ (by simp [hpa])] at h
      obtain ⟨l₁, l₂, heq, h1, h2⟩ := ih h
      refine ⟨a :: l₁, l₂, by rw [heq]; rfl, ?_, h2⟩
      intro y hy
      rcases List.mem_cons.mp hy with rfl | hy
      · exact hpa
      · exact h1 y hy

theorem listMax_spec : ∀ {l : List Nat}, l ≠ [] →
    ∃ m, listMax l = some m ∧ m ∈ l ∧ ∀ c ∈ l, c ≤ m := by
  intro l
  induction l with
  | nil => intro h; exact absurd rfl h
  | cons a l ih =>
    intro _
    by_cases hl : l = []
    · subst hl
      exact ⟨a, rfl, by simp, by simp⟩
    · obtain ⟨m, hm, hmem, hle⟩ := ih hl
      refine ⟨max a m, ?_, ?_, ?_⟩
      · simp only [listMax, hm]
      · rcases Nat.le_total a m with h | h
        · rw [Nat.max_eq_right h]
          exact List.mem_cons_of_mem a hmem
        · rw [Nat.max_eq_left h]
          exact List.mem_cons_self a l
      · intro c hc
        rcases List.mem_cons.mp hc with rfl | hc
        · exact Nat.le_max_left _ _
        · exact le_trans (hle c hc) (Nat.le_max_right a m)

/-- The source-day computation shared by model construction and
assembly: it always yields a cook day, the nearest one strictly before
`d` when one exists, else the latest cook day (the wrap). -/
theorem prev_cook_model_spec (cook : List Nat) (d : Nat) (hne : cook ≠ []) :
    ∃ pc, prev_cook_model cook d = some pc ∧ pc ∈ cook ∧
      ((∃ c ∈ cook, c < d) → pc < d ∧ ∀ c ∈ cook, c < d → c ≤ pc) ∧
      ((∀ c ∈ cook, ¬ c < d) → ∀ c ∈ cook, c ≤ pc) := by
  cases hf : (sortedDesc cook).find? (fun cd => cd < d) with
  | some cd =>
    obtain ⟨l₁, l₂, heq, hbefore, hsat⟩ := find?_split hf
    have hmem : cd ∈ cook := by
      rw [← mem_sortedDesc, heq]
      simp
    have hlt : cd < d := by simpa using hsat
    refine ⟨cd, ?_, hmem, fun _ => ⟨hlt, ?_⟩,
      fun hnone => absurd hlt (hnone cd hmem)⟩
    · unfold prev_cook_model
      rw [hf]
    · intro c hc hcd
      have hcs : c ∈ sortedDesc cook := mem_sortedDesc.mpr hc
      rw [heq] at hcs
      rcases List.mem_append.mp hcs with hc1 | hc2
      · have := hbefore c hc1
        simp only [decide_eq_false_iff_not] at this
        exact absurd hcd this
      · rcases List.mem_cons.mp hc2 with rfl | hc2
        · exact le_refl c
        · have hp := pairwise_sortedDesc cook
          rw [heq] at hp
          have hcons := (List.pairwise_append.mp hp).2.1
          exact (List.pairwise_cons.mp hcons).1 c hc2
  | none =>
    obtain ⟨m, hm, hmem, hle⟩ := listMax_spec hne
    have hno : ∀ c ∈ cook, ¬ c < d := by
      intro c hc
      have := List.find?_eq_none.mp hf c (mem_sortedDesc.mpr hc)
      simpa using this
    refine ⟨m, ?_, hmem, ?_, fun _ => hle⟩
    · unfold prev_cook_model
      rw [hf, hm]
    · rintro ⟨c, hc, hcd⟩
      exact absurd hcd (hno c hc)

/-- C8: the plan assembler's source-day computation for a leftover
dinner equals the one used while the optimization model was built; when
at least one cook day exists the computed source is the nearest cook day
strictly before `d` (the maximum cook day below `d`) or, with no earlier
cook day, the latest cook day of the plan (the wrap); and the assembled
slot pairs the dinner the solver chose for that source day with the
LEFTOVER prep style. -/
theorem C8_leftover_source (cook : List Nat) (d : Nat) (hne : cook ≠ [])
    (sol : Nat → Nat) (cands : List Recipe) :
    (prev_cook_assembler cook d = prev_cook_model cook d) ∧
    (∃ pc, prev_cook_model cook d = some pc) ∧
    (∀ pc, prev_cook_model cook d = some pc →
       pc ∈ cook ∧
       ((∃ c ∈ cook, c < d) → pc < d ∧ ∀ c ∈ cook, c < d → c ≤ pc) ∧
       ((∀ c ∈ cook, ¬ c < d) → ∀ c ∈ cook, c ≤ pc)) ∧
    (leftover_dinner_choice cook sol cands d =
       (prev_cook_model cook d).bind
         (fun pc => (cands.get? (sol pc)).map (fun r => (r, PrepStyle.leftover)))) := by
  obtain ⟨pc0, hpc0, hmem0, hnear0, hwrap0⟩ := prev_cook_model_spec cook d hne
  refine ⟨rfl, ⟨pc0, hpc0⟩, ?_, ?_⟩
  · intro pc hpc
    rw [hpc0] at hpc
    obtain rfl : pc0 = pc := Option.some.inj hpc
    exact ⟨hmem0, hnear0, hwrap0⟩
  · unfold leftover_dinner_choice prev_cook_assembler prev_cook_model
    cases (sortedDesc cook).find? (fun cd => cd < d) with
    | some cd => rfl
    | none =>
      cases listMax cook with
      | some m => rfl
      | none => rfl

/-- Witness for C8: cook days 0 and 2 on a 4-day plan; the slot for
leftover day 3 derives from cook day 2, and day 0 itself (no earlier
cook day) wraps to cook day 2. -/
theorem C8_leftover_source_witness :
    (prev_cook_assembler [0, 2] 3 = prev_cook_model [0, 2] 3) ∧
    (∀ pc, prev_cook_model [0, 2] 0 = some pc → pc ∈ [0, 2]) := by
  constructor
  · exact (C8_leftover_source [0, 2] 3 (by decide) (fun _ => 0) []).1
  · intro pc hpc
    exact ((C8_leftover_source [0, 2] 0 (by decide) (fun _ => 0) []).2.2.1
      pc hpc).1

/-! ## Claims C7 and C10 — pin resolution -/

theorem slotMapGet_some_mem : ∀ {m : List ((Nat × String) × String)}
    {k : Nat × String} {v : String}, slotMapGet m k = some v →
    ∃ p ∈ m, p.2 = v := by
  intro m
  induction m with
  | nil => intro k v h; cases h
  | cons p rest ih =>
    intro k v h
    unfold slotMapGet at h
    by_cases hp : p.1 == k
    · rw [if_pos hp] at h
      exact ⟨p, List.mem_cons_self _ _, Option.some.inj h⟩
    · rw [if_neg hp] at h
      obtain ⟨q, hq, hqv⟩ := ih h
      exact ⟨q, List.mem_cons_of_mem _ hq, hqv⟩

theorem slotMapSet_values {nm : String} : ∀ {m : List ((Nat × String) × String)}
    {k : Nat × String}, (∀ p ∈ m, p.2 = nm) →
    ∀ p ∈ slotMapSet m k nm, p.2 = nm := by
  intro m
  induction m with
  | nil =>
    intro k _ p hp
    rcases List.mem_singleton.mp hp with rfl
    rfl
  | cons q rest ih =>
    intro k hm p hp
    unfold slotMapSet at hp
    by_cases hq : q.1 == k
    · rw [if_pos hq] at hp
      rcases List.mem_cons.mp hp with hpq | hp
      · rw [hpq]
      · exact hm p (List.mem_cons_of_mem q hp)
    · rw [if_neg hq] at hp
      rcases List.mem_cons.mp hp with hpq | hp
      · rw [hpq]
        exact hm q (List.mem_cons_self q rest)
      · exact ih (fun b hb => hm b (List.mem_cons_of_mem q hb)) p hp

/-- A run of assignments that all carry the same recipe name can never
trigger a conflict, whatever compatible map it starts from. -/
theorem conflictFold_const_name (nm : String) :
    ∀ (l : List (Nat × String × String)) (m : List ((Nat × String) × String)),
    (∀ a ∈ l, a.2.2 = nm) → (∀ p ∈ m, p.2 = nm) →
    conflictFold l m = .ok () := by
  intro l
  induction l with
  | nil => intro m _ _; rfl
  | cons a l ih =>
    intro m hl hm
    obtain ⟨d, meal, name⟩ := a
    have hname : name = nm := hl (d, meal, name) (List.mem_cons_self _ _)
    have htail : ∀ b ∈ l, b.2.2 = nm :=
      fun b hb => hl b (List.mem_cons_of_mem _ hb)
    have hset : ∀ p ∈ slotMapSet m (d, meal) name, p.2 = nm := by
      rw [hname]; exact slotMapSet_values hm
    cases hget : slotMapGet m (d, meal) with
    | some existing =>
      obtain ⟨p, hp, hpv⟩ := slotMapGet_some_mem hget
      have hex : existing = nm := hpv ▸ hm p hp
      unfold conflictFold
      simp only [hget]
      rw [if_neg (by rw [hex, hname]; exact fun hc => hc rfl)]
      exact ih _ htail hset
    | none =>
      unfold conflictFold
      simp only [hget]
      exact ih _ htail hset

/-- A single resolved pin never conflicts with itself: every assignment
it generates carries the same recipe name. -/
theorem detect_conflicts_singleton (rp : ResolvedPin) :
    detect_conflicts [rp] = .ok () := by
  unfold detect_conflicts slotAssigns
  apply conflictFold_const_name rp.recipe.name
  · intro a ha
    simp only [List.flatMap_cons, List.flatMap_nil, List.append_nil] at ha
    obtain ⟨d, _, rfl⟩ := List.mem_map.mp ha
    rfl
  · intro p hp
    exact absurd hp (List.not_mem_nil p)

/-- Overwriting an existing key of a `candidates_by_meal` dict leaves
the key bound to the new value. -/
theorem assocGet_update_self {α : Type} :
    ∀ (pools : List (String × α)) (k : String) (v : α),
    (assocGet pools k).isSome →
    assocGet (pools.map (fun p => if p.1 == k then (p.1, v) else p)) k = some v := by
  intro pools
  induction pools with
  | nil => intro k v h; simp [assocGet, List.find?] at h
  | cons p rest ih =>
    intro k v h
    by_cases hk : p.1 = k
    · unfold assocGet
      rw [List.map_cons, if_pos (by simpa using hk)]
      rw [List.find?_cons_of_pos _ (by simpa using hk)]
    · unfold assocGet
      rw [List.map_cons, if_neg (by simpa using hk)]
      rw [List.find?_cons_of_neg _ (by simpa using hk)]
      have hrest : (assocGet rest k).isSome := by
        unfold assocGet at h
        rw [List.find?_cons_of_neg _ (by simpa using hk)] at h
        exact h
      have := ih k v hrest
      unfold assocGet at this
      exact this

/-- One-pin resolution, batch-breakfast validation already passed: the
lookup's failure aborts the run, and its success yields the resolved pin
and the updated pools. -/
theorem resolve_pins_one (pin : PinSpec) (pools : List (String × List Recipe))
    (all_recipes : List Recipe) (num_days : Nat) (b : Bool)
    (hbatch : ¬(pin.meal_type = .breakfast ∧ b = true ∧ pin.pattern ≠ .all)) :
    (∀ e, find_recipe pin.recipe_query
        ((assocGet pools pin.meal_type.value).getD []) all_recipes = .error e →
       resolve_pins [pin] pools all_recipes num_days b = .error e) ∧
    (∀ r idx inj cs', find_recipe pin.recipe_query
        ((assocGet pools pin.meal_type.value).getD []) all_recipes =
          .ok (r, idx, inj, cs') →
       resolve_pins [pin] pools all_recipes num_days b =
         .ok ([{ days := expand_pin_days pin num_days,
                 meal_type := pin.meal_type, recipe := r,
                 candidate_index := idx, injected := inj }],
              if (assocGet pools pin.meal_type.value).isSome then
                pools.map (fun p =>
                  if p.1 == pin.meal_type.value then (p.1, cs') else p)
              else pools)) := by
  have hone : ∀ res, find_recipe pin.recipe_query
      ((assocGet pools pin.meal_type.value).getD []) all_recipes = res →
      resolveOnePin b num_days all_recipes pools pin =
        match res with
        | .error e => .error e
        | .ok (r, idx, inj, cs') =>
          .ok ({ days := expand_pin_days pin num_days,
                 meal_type := pin.meal_type, recipe := r,
                 candidate_index := idx, injected := inj },
               if (assocGet pools pin.meal_type.value).isSome then
                 pools.map (fun p =>
                   if p.1 == pin.meal_type.value then (p.1, cs') else p)
               else pools) := by
    intro res hres
    simp only [resolveOnePin]
    rw [if_neg hbatch, hres]
  constructor
  · intro e he
    unfold resolve_pins
    simp only [resolvePinsGo]
    rw [hone (.error e) he]
  · intro r idx inj cs' hok
    unfold resolve_pins
    simp only [resolvePinsGo]
    rw [hone (.ok (r, idx, inj, cs')) hok]
    simp only [resolvePinsGo]
    rw [detect_conflicts_singleton]

/-- C7: with breakfast configured as batch, a breakfast pin whose
pattern is not ALL is rejected with the batch-mode error before any
lookup, while an ALL-pattern breakfast pin passes validation and, when
its recipe lookup succeeds, resolves successfully. -/
theorem C7_batch_breakfast_pin (pin : PinSpec)
    (pools : List (String × List Recipe)) (all_recipes : List Recipe)
    (num_days : Nat) (hb : pin.meal_type = .breakfast) :
    (pin.pattern ≠ .all →
       resolve_pins [pin] pools all_recipes num_days true =
         .error (.batchMode pin.pattern pin.recipe_query)) ∧
    (pin.pattern = .all →
       ∀ r idx inj cs', find_recipe pin.recipe_query
           ((assocGet pools "breakfast").getD []) all_recipes =
             .ok (r, idx, inj, cs') →
         ∃ rp pools', resolve_pins [pin] pools all_recipes num_days true =
             .ok ([rp], pools') ∧ rp.recipe = r) := by
  constructor
  · intro hpat
    unfold resolve_pins
    simp only [resolvePinsGo]
    unfold resolveOnePin
    rw [if_pos ⟨hb, rfl, hpat⟩]
  · intro hpat r idx inj cs' hok
    have hval : pin.meal_type.value = "breakfast" := by rw [hb]; rfl
    have h2 := (resolve_pins_one pin pools all_recipes num_days true
      (by rintro ⟨-, -, hne⟩; exact hne hpat)).2 r idx inj cs'
      (by rw [hval]; exact hok)
    exact ⟨_, _, h2, rfl⟩

/-- Witness for C7: a single-day batch-mode breakfast pin is rejected;
the ALL-pattern pin for the same recipe resolves. -/
theorem C7_batch_breakfast_pin_witness :
    resolve_pins [{ day := some 0, meal_type := .breakfast,
                    recipe_query := "Breakfast Slop", pattern := .single }]
        [("breakfast", [{ name := "Breakfast Slop" }])] [] 7 true =
      .error (.batchMode .single "Breakfast Slop") := by
  exact (C7_batch_breakfast_pin
    { day := some 0, meal_type := .breakfast,
      recipe_query := "Breakfast Slop", pattern := .single }
    [("breakfast", [{ name := "Breakfast Slop" }])] [] 7 rfl).1 (by decide)

/-- C10: a pin whose expanded day set is empty still performs the
recipe lookup inside `resolve_pins` — a failed lookup aborts the whole
run, and a corpus-only match is still appended to that meal's candidate
pool, although the pin constrains no slot. -/
theorem C10_empty_day_pin_lookup (pin : PinSpec)
    (pools : List (String × List Recipe)) (all_recipes : List Recipe)
    (num_days : Nat) (b : Bool)
    (hdays : expand_pin_days pin num_days = [])
    (hbatch : ¬(pin.meal_type = .breakfast ∧ b = true ∧ pin.pattern ≠ .all)) :
    (∀ e, find_recipe pin.recipe_query
        ((assocGet pools pin.meal_type.value).getD []) all_recipes = .error e →
       resolve_pins [pin] pools all_recipes num_days b = .error e) ∧
    (∀ r idx cs', find_recipe pin.recipe_query
        ((assocGet pools pin.meal_type.value).getD []) all_recipes =
          .ok (r, idx, true, cs') →
       (assocGet pools pin.meal_type.value).isSome →
       ∃ rp pools', resolve_pins [pin] pools all_recipes num_days b =
           .ok ([rp], pools') ∧ rp.days = [] ∧ rp.injected = true ∧
           assocGet pools' pin.meal_type.value = some cs') := by
  obtain ⟨herr, hok⟩ := resolve_pins_one pin pools all_recipes num_days b hbatch
  refine ⟨herr, ?_⟩
  intro r idx cs' hfind hsome
  refine ⟨_, _, hok r idx true cs' hfind, hdays, rfl, ?_⟩
  simp only [hsome, if_pos]
  exact assocGet_update_self pools pin.meal_type.value cs' hsome

/-- Pool used by the C10 witness. -/
def c10pools : List (String × List Recipe) :=
  [("dinner", [{ name := "Beef Stew Recipe" }])]

/-- C10 witness: the pin `sunday:dinner:Caesar Salad` on a 3-day plan
expands to no day at all, yet its lookup injects `Caesar Salad` into the
dinner pool, and a failing lookup aborts resolution. -/
theorem C10_empty_day_pin_lookup_witness :
    (resolve_pins [{ day := some 6, meal_type := .dinner,
                     recipe_query := "Nope", pattern := .single }]
        c10pools [] 3 false = .error (.notFound "Nope")) ∧
    (∃ rp pools',
       resolve_pins [{ day := some 6, meal_type := .dinner,
                       recipe_query := "Caesar Salad", pattern := .single }]
           c10pools [{ name := "Caesar Salad" }] 3 false =
         .ok ([rp], pools') ∧ rp.days = [] ∧ rp.injected = true ∧
         assocGet pools' "dinner" =
           some [{ name := "Beef Stew Recipe" }, { name := "Caesar Salad" }]) := by
  constructor
  · exact (C10_empty_day_pin_lookup
      { day := some 6, meal_type := .dinner,
        recipe_query := "Nope", pattern := .single }
      c10pools [] 3 false (by decide) (by rintro ⟨hc, -, -⟩; cases hc)).1
      (.notFound "Nope") (by decide)
  · exact (C10_empty_day_pin_lookup
      { day := some 6, meal_type := .dinner,
        recipe_query := "Caesar Salad", pattern := .single }
      c10pools [{ name := "Caesar Salad" }] 3 false (by decide)
      (by rintro ⟨hc, -, -⟩; cases hc)).2
      { name := "Caesar Salad" } 1
      [{ name := "Beef Stew Recipe" }, { name := "Caesar Salad" }]
      (by decide) (by decide)

/-! ## Claim C4 — conflict detection -/

theorem slotMapGet_nil (k : Nat × String) : slotMapGet [] k = none := rfl

theorem slotMapGet_set (k k' : Nat × String) (v : String) :
    ∀ (m : List ((Nat × String) × String)),
    slotMapGet (slotMapSet m k v) k' =
      if k' = k then some v else slotMapGet m k' := by
  intro m
  induction m with
  | nil =>
    by_cases hk : k' = k
    · subst hk
      simp [slotMapSet, slotMapGet]
    · have hk' : ¬ (k = k') := fun h => hk h.symm
      simp [slotMapSet, slotMapGet, hk, hk']
  | cons p rest ih =>
    by_cases hp : p.1 = k
    · by_cases hk : k' = k
      · subst hk
        simp [slotMapSet, slotMapGet, hp]
      · have hp' : ¬ (p.1 = k') := by
          rw [hp]
          exact fun h => hk h.symm
        have hk2 : ¬ (k = k') := fun h => hk h.symm
        simp [slotMapSet, slotMapGet, hp, hp', hk, hk2]
    · by_cases hpk : p.1 = k'
      · have hk : ¬ (k' = k) := by
          rw [← hpk]
          exact hp
        simp [slotMapSet, slotMapGet, hp, hpk, hk]
      · simp [slotMapSet, slotMapGet, hp, hpk, ih]

/-- The conflict fold succeeds exactly when the assignments agree
pairwise on every shared `(day, meal)` key and agree with every key the
starting map already binds. -/
theorem conflictFold_ok_iff :
    ∀ (l : List (Nat × String × String)) (m : List ((Nat × String) × String)),
    conflictFold l m = .ok () ↔
      ((∀ a ∈ l, ∀ b ∈ l, a.1 = b.1 → a.2.1 = b.2.1 → a.2.2 = b.2.2) ∧
       (∀ a ∈ l, ∀ v, slotMapGet m (a.1, a.2.1) = some v → a.2.2 = v)) := by
  intro l
  induction l with
  | nil =>
    intro m
    constructor
    · intro _
      exact ⟨by intro a ha; exact absurd ha (List.not_mem_nil a),
             by intro a ha; exact absurd ha (List.not_mem_nil a)⟩
    · intro _
      rfl
  | cons a l ih =>
    intro m
    obtain ⟨d, meal, name⟩ := a
    have hunfold : conflictFold ((d, meal, name) :: l) m =
        (match slotMapGet m (d, meal) with
         | some existing =>
           if existing ≠ name then
             Except.error (ResolveError.conflict d meal existing name)
           else conflictFold l (slotMapSet m (d, meal) name)
         | none => conflictFold l (slotMapSet m (d, meal) name)) := rfl
    have hstep : conflictFold ((d, meal, name) :: l) m = .ok () ↔
        ((∀ v, slotMapGet m (d, meal) = some v → name = v) ∧
         conflictFold l (slotMapSet m (d, meal) name) = .ok ()) := by
      rw [hunfold]
      cases hget : slotMapGet m (d, meal) with
      | some ex =>
        simp only []
        by_cases hex : ex = name
        · rw [if_neg (fun hc => hc hex)]
          constructor
          · intro h
            exact ⟨fun v hv => (hex.symm.trans (Option.some.inj hv)), h⟩
          · intro h
            exact h.2
        · rw [if_pos hex]
          constructor
          · intro h
            exact absurd h (by simp)
          · intro h
            exact absurd (h.1 ex rfl).symm hex
      | none =>
        simp only []
        constructor
        · intro h
          exact ⟨fun v hv => Option.noConfusion hv, h⟩
        · intro h
          exact h.2
    rw [hstep, ih]
    constructor
    · rintro ⟨haok, hpl, hcl⟩
      refine ⟨?_, ?_⟩
      · intro x hx y hy h1 h2
        rcases List.mem_cons.mp hx with rfl | hx <;>
          rcases List.mem_cons.mp hy with rfl | hy
        · rfl
        · have hkey : slotMapGet (slotMapSet m (d, meal) name) (y.1, y.2.1) =
              some name := by
            rw [slotMapGet_set]
            rw [if_pos (by simp only [← h1, ← h2])]
          exact (hcl y hy name hkey).symm
        · have hkey : slotMapGet (slotMapSet m (d, meal) name) (x.1, x.2.1) =
              some name := by
            rw [slotMapGet_set]
            rw [if_pos (by simp only [h1, h2])]
          exact hcl x hx name hkey
        · exact hpl x hx y hy h1 h2
      · intro x hx v hv
        rcases List.mem_cons.mp hx with rfl | hx
        · exact haok v hv
        · by_cases hk : (x.1, x.2.1) = (d, meal)
          · have hname : name = v := by
              apply haok
              rw [← hk]
              exact hv
            have hkey : slotMapGet (slotMapSet m (d, meal) name) (x.1, x.2.1) =
                some name := by
              rw [slotMapGet_set, if_pos hk]
            rw [hcl x hx name hkey, hname]
          · apply hcl x hx v
            rw [slotMapGet_set, if_neg hk]
            exact hv
    · rintro ⟨hpair, hcompat⟩
      have haok : ∀ v, slotMapGet m (d, meal) = some v → name = v :=
        fun v hv => hcompat (d, meal, name) (List.mem_cons_self _ _) v hv
      refine ⟨haok, ?_, ?_⟩
      · intro x hx y hy h1 h2
        exact hpair x (List.mem_cons_of_mem _ hx) y (List.mem_cons_of_mem _ hy) h1 h2
      · intro x hx v hv
        rw [slotMapGet_set] at hv
        by_cases hk : (x.1, x.2.1) = (d, meal)
        · rw [if_pos hk] at hv
          obtain rfl : name = v := Option.some.inj hv
          have h1 : x.1 = d := congrArg Prod.fst hk
          have h2 : x.2.1 = meal := congrArg Prod.snd hk
          exact hpair x (List.mem_cons_of_mem _ hx) (d, meal, name)
            (List.mem_cons_self _ _) h1 h2
        · rw [if_neg hk] at hv
          exact hcompat x (List.mem_cons_of_mem _ hx) v hv

theorem conflictFold_error_mem :
    ∀ (l : List (Nat × String × String))
      (m : List ((Nat × String) × String)) (d : Nat) (mk n1 n2 : String),
    conflictFold l m = .error (.conflict d mk n1 n2) →
    n1 ≠ n2 ∧ (d, mk, n2) ∈ l ∧
      ((d, mk, n1) ∈ l ∨ slotMapGet m (d, mk) = some n1) := by
  intro l
  induction l with
  | nil =>
    intro m d mk n1 n2 h
    exact absurd h (by simp [conflictFold])
  | cons a l ih =>
    intro m d mk n1 n2 h
    obtain ⟨d0, m0, nm⟩ := a
    have hunfold : conflictFold ((d0, m0, nm) :: l) m =
        (match slotMapGet m (d0, m0) with
         | some existing =>
           if existing ≠ nm then
             Except.error (ResolveError.conflict d0 m0 existing nm)
           else conflictFold l (slotMapSet m (d0, m0) nm)
         | none => conflictFold l (slotMapSet m (d0, m0) nm)) := rfl
    rw [hunfold] at h
    have hrec : conflictFold l (slotMapSet m (d0, m0) nm) =
        .error (.conflict d mk n1 n2) →
        n1 ≠ n2 ∧ (d, mk, n2) ∈ (d0, m0, nm) :: l ∧
          ((d, mk, n1) ∈ (d0, m0, nm) :: l ∨ slotMapGet m (d, mk) = some n1) := by
      intro h
      obtain ⟨hne, hmem2, hmem1⟩ := ih _ d mk n1 n2 h
      refine ⟨hne, List.mem_cons_of_mem _ hmem2, ?_⟩
      rcases hmem1 with hin | hget'
      · exact Or.inl (List.mem_cons_of_mem _ hin)
      · rw [slotMapGet_set] at hget'
        by_cases hk : (d, mk) = (d0, m0)
        · rw [if_pos hk] at hget'
          obtain rfl : nm = n1 := Option.some.inj hget'
          have h1 : d = d0 := congrArg Prod.fst hk
          have h2 : mk = m0 := congrArg Prod.snd hk
          refine Or.inl ?_
          rw [h1, h2]
          exact List.mem_cons_self _ _
        · rw [if_neg hk] at hget'
          exact Or.inr hget'
    cases hget : slotMapGet m (d0, m0) with
    | some ex =>
      rw [hget] at h
      simp only [] at h
      by_cases hex : ex ≠ nm
      · rw [if_pos hex] at h
        have hinj := ResolveError.conflict.inj (Except.error.inj h)
        obtain ⟨rfl, rfl, rfl, rfl⟩ := hinj
        exact ⟨hex, List.mem_cons_self _ _, Or.inr hget⟩
      · rw [if_neg hex] at h
        exact hrec h
    | none =>
      rw [hget] at h
      simp only [] at h
      exact hrec h



theorem mem_slotAssigns {resolved : List ResolvedPin}
    {a : Nat × String × String} :
    a ∈ slotAssigns resolved ↔
      ∃ p ∈ resolved, a.1 ∈ p.days ∧ p.meal_type.value = a.2.1 ∧
        p.recipe.name = a.2.2 := by
  unfold slotAssigns
  rw [List.mem_flatMap]
  constructor
  · rintro ⟨p, hp, ha⟩
    obtain ⟨d, hd, rfl⟩ := List.mem_map.mp ha
    exact ⟨p, hp, hd, rfl, rfl⟩
  · rintro ⟨p, hp, hd, hmv, hnm⟩
    refine ⟨p, hp, List.mem_map.mpr ⟨a.1, hd, ?_⟩⟩
    obtain ⟨a1, a2, a3⟩ := a
    simp only at hmv hnm ⊢
    rw [hmv, hnm]

theorem MealType.value_injective {x y : MealType} (h : x.value = y.value) :
    x = y := by
  cases x <;> cases y <;> first | rfl | exact absurd h (by decide)

/-- C4: pin resolution's conflict detection raises an error exactly when
two resolved pins claim the same `(day, meal-type)` key with different
recipe names, and the raised conflict carries the day, the meal-type key
and both distinct recipe names, each claimed by some resolved pin; the
same recipe name pinned twice to one key never conflicts. -/
theorem C4_pin_conflicts (resolved : List ResolvedPin) :
    ((∃ e, detect_conflicts resolved = .error e) ↔
       ∃ p ∈ resolved, ∃ q ∈ resolved, ∃ d, d ∈ p.days ∧ d ∈ q.days ∧
         p.meal_type = q.meal_type ∧ p.recipe.name ≠ q.recipe.name) ∧
    (∀ d mk n1 n2,
       detect_conflicts resolved = .error (.conflict d mk n1 n2) →
       n1 ≠ n2 ∧
       (∃ p ∈ resolved, d ∈ p.days ∧ p.meal_type.value = mk ∧
          p.recipe.name = n1) ∧
       (∃ q ∈ resolved, d ∈ q.days ∧ q.meal_type.value = mk ∧
          q.recipe.name = n2)) := by
  constructor
  · constructor
    · rintro ⟨e, he⟩
      unfold detect_conflicts at he
      have hnotok : ¬ conflictFold (slotAssigns resolved) [] = .ok () := by
        intro hok
        rw [hok] at he
        cases he
      rw [conflictFold_ok_iff] at hnotok
      have hpairfail : ¬ (∀ a ∈ slotAssigns resolved,
          ∀ b ∈ slotAssigns resolved,
          a.1 = b.1 → a.2.1 = b.2.1 → a.2.2 = b.2.2) := by
        intro hp
        exact hnotok ⟨hp, by
          intro a _ v hv
          rw [slotMapGet_nil] at hv
          cases hv⟩
      push_neg at hpairfail
      obtain ⟨x, hx, y, hy, h1, h2, h3⟩ := hpairfail
      obtain ⟨p, hp, hpd, hpm, hpn⟩ := mem_slotAssigns.mp hx
      obtain ⟨q, hq, hqd, hqm, hqn⟩ := mem_slotAssigns.mp hy
      refine ⟨p, hp, q, hq, x.1, hpd, by rw [h1]; exact hqd, ?_, ?_⟩
      · exact MealType.value_injective (by rw [hpm, hqm, h2])
      · rw [hpn, hqn]
        exact h3
    · rintro ⟨p, hp, q, hq, d, hpd, hqd, hmt, hne⟩
      unfold detect_conflicts
      rcases hres : conflictFold (slotAssigns resolved) [] with e | u
      · exact ⟨e, rfl⟩
      · exfalso
        cases u
        have hpair := (conflictFold_ok_iff _ _ |>.mp hres).1
        have hx : (d, p.meal_type.value, p.recipe.name) ∈
            slotAssigns resolved := mem_slotAssigns.mpr ⟨p, hp, hpd, rfl, rfl⟩
        have hy : (d, q.meal_type.value, q.recipe.name) ∈
            slotAssigns resolved := mem_slotAssigns.mpr ⟨q, hq, hqd, rfl, rfl⟩
        have := hpair _ hx _ hy rfl (by simp only [hmt])
        exact hne this
  · intro d mk n1 n2 he
    unfold detect_conflicts at he
    obtain ⟨hne, hmem2, hmem1⟩ := conflictFold_error_mem _ _ d mk n1 n2 he
    rcases hmem1 with hmem1 | hget
    · obtain ⟨p, hp, hpd, hpm, hpn⟩ := mem_slotAssigns.mp hmem1
      obtain ⟨q, hq, hqd, hqm, hqn⟩ := mem_slotAssigns.mp hmem2
      exact ⟨hne, ⟨p, hp, hpd, hpm, hpn⟩, ⟨q, hq, hqd, hqm, hqn⟩⟩
    · rw [slotMapGet_nil] at hget
      cases hget

/-- First resolved pin of the C4 witness. -/
def c4p1 : ResolvedPin :=
  { days := [0], meal_type := .dinner,
    recipe := { name := "Chicken Tikka Masala" }, candidate_index := 0 }

/-- Second resolved pin of the C4 witness. -/
def c4p2 : ResolvedPin :=
  { days := [0], meal_type := .dinner,
    recipe := { name := "Beef Stew Recipe" }, candidate_index := 1 }

/-- Witness for C4: two dinners pinned to day 0 with different recipes
conflict, and the raised conflict names the day, the meal and both
recipes. -/
theorem C4_pin_conflicts_witness :
    (∃ e, detect_conflicts [c4p1, c4p2] = .error e) ∧
    ("Chicken Tikka Masala" ≠ "Beef Stew Recipe" ∧
     (∃ p ∈ [c4p1, c4p2], 0 ∈ p.days ∧ p.meal_type.value = "dinner" ∧
        p.recipe.name = "Chicken Tikka Masala") ∧
     (∃ q ∈ [c4p1, c4p2], 0 ∈ q.days ∧ q.meal_type.value = "dinner" ∧
        q.recipe.name = "Beef Stew Recipe")) := by
  constructor
  · exact (C4_pin_conflicts [c4p1, c4p2]).1.mpr
      ⟨c4p1, List.mem_cons_self _ _,
       c4p2, List.mem_cons_of_mem _ (List.mem_cons_self _ _),
       0, by decide, by decide, rfl, by decide⟩
  · exact (C4_pin_conflicts [c4p1, c4p2]).2 0 "dinner"
      "Chicken Tikka Masala" "Beef Stew Recipe" (by decide)

/-! ## Claim C6 — ingredient-group id assignment -/

theorem lookupGroup_some_mem : ∀ {m : List (GroupKey × Nat)} {k : GroupKey}
    {v : Nat}, lookupGroup m k = some v → (k, v) ∈ m := by
  intro m
  induction m with
  | nil => intro k v h; cases h
  | cons p rest ih =>
    intro k v h
    unfold lookupGroup at h
    by_cases hp : p.1 == k
    · rw [if_pos hp] at h
      obtain rfl : p.2 = v := Option.some.inj h
      have hk : p.1 = k := by simpa using hp
      rw [← hk]
      exact List.mem_cons_self p rest
    · rw [if_neg hp] at h
      exact List.mem_cons_of_mem p (ih h)

theorem lookupGroup_none_key : ∀ {m : List (GroupKey × Nat)} {k : GroupKey},
    lookupGroup m k = none → k ∉ m.map Prod.fst := by
  intro m
  induction m with
  | nil => intro k _ hk; exact absurd hk (List.not_mem_nil k)
  | cons p rest ih =>
    intro k h hk
    unfold lookupGroup at h
    by_cases hp : p.1 == k
    · rw [if_pos hp] at h
      cases h
    · rw [if_neg hp] at h
      rcases List.mem_cons.mp hk with hk1 | hk2
      · exact hp (by simpa using hk1.symm)
      · exact ih h hk2

theorem lookupGroup_of_mem : ∀ {m : List (GroupKey × Nat)} {k : GroupKey}
    {v : Nat}, (m.map Prod.fst).Nodup → (k, v) ∈ m →
    lookupGroup m k = some v := by
  intro m
  induction m with
  | nil => intro k v _ hm; exact absurd hm (List.not_mem_nil _)
  | cons p rest ih =>
    intro k v hnd hm
    obtain ⟨hp, hrest⟩ := List.nodup_cons.mp hnd
    unfold lookupGroup
    rcases List.mem_cons.mp hm with hm1 | hm2
    · have hk : p.1 = k := (congrArg Prod.fst hm1).symm
      have hv : p.2 = v := (congrArg Prod.snd hm1).symm
      rw [if_pos (by simp [hk]), hv]
    · have hk : p.1 ≠ k := by
        intro hk
        apply hp
        rw [hk]
        exact List.mem_map.mpr ⟨(k, v), hm2, rfl⟩
      rw [if_neg (by simpa using hk)]
      exact ih hrest hm2

theorem lookupGroup_persists {m M : List (GroupKey × Nat)} {k : GroupKey}
    {v : Nat} (hpre : m <+: M) (hnd : (M.map Prod.fst).Nodup)
    (h : lookupGroup m k = some v) : lookupGroup M k = some v :=
  lookupGroup_of_mem hnd (hpre.subset (lookupGroup_some_mem h))

theorem values_nodup_key_eq : ∀ {m : List (GroupKey × Nat)} {k1 k2 : GroupKey}
    {v : Nat}, (m.map Prod.snd).Nodup → (k1, v) ∈ m → (k2, v) ∈ m →
    k1 = k2 := by
  intro m
  induction m with
  | nil => intro k1 k2 v _ h1; exact absurd h1 (List.not_mem_nil _)
  | cons p rest ih =>
    intro k1 k2 v hnd h1 h2
    obtain ⟨hpv, hrest⟩ := List.nodup_cons.mp hnd
    rcases List.mem_cons.mp h1 with h1 | h1 <;>
      rcases List.mem_cons.mp h2 with h2 | h2
    · exact (congrArg Prod.fst h1).trans (congrArg Prod.fst h2).symm
    · exfalso
      apply hpv
      rw [show p.2 = v from (congrArg Prod.snd h1).symm]
      exact List.mem_map.mpr ⟨(k2, v), h2, rfl⟩
    · exfalso
      apply hpv
      rw [show p.2 = v from (congrArg Prod.snd h2).symm]
      exact List.mem_map.mpr ⟨(k1, v), h1, rfl⟩
    · exact ih hrest h1 h2

/-- Invariant of the `build_ingredient_group_table` loop state: the map
holds the ids `0..next_id-1` in insertion order, its keys are distinct,
and every `none` key it holds was stamped with an already-consumed id. -/
def GInv (m : List (GroupKey × Nat)) (n : Nat) : Prop :=
  m.map Prod.snd = List.range n ∧
  (m.map Prod.fst).Nodup ∧
  (∀ s, GroupKey.noneKey s ∈ m.map Prod.fst → s < n)

theorem group_key_at_pure_some {r : Recipe} {k : GroupKey}
    (h : pure_group_key r = some k) (n : Nat) : group_key_at r n = k := by
  unfold pure_group_key at h
  unfold group_key_at
  cases hn : normalize_ingredient_group r.main_ingredient with
  | some g =>
    rw [hn] at h
    exact Option.some.inj h
  | none =>
    rw [hn] at h
    cases hmi : r.main_ingredient with
    | some raw =>
      rw [hmi] at h
      exact Option.some.inj h
    | none =>
      rw [hmi] at h
      cases h

theorem group_key_at_pure_none {r : Recipe}
    (h : pure_group_key r = none) (n : Nat) :
    group_key_at r n = .noneKey n := by
  unfold pure_group_key at h
  unfold group_key_at
  cases hn : normalize_ingredient_group r.main_ingredient with
  | some g =>
    rw [hn] at h
    cases h
  | none =>
    rw [hn] at h
    cases hmi : r.main_ingredient with
    | some raw =>
      rw [hmi] at h
      cases h
    | none => rfl

theorem pure_group_key_shape {r : Recipe} {k : GroupKey}
    (h : pure_group_key r = some k) : ∀ s, k ≠ .noneKey s := by
  unfold pure_group_key at h
  cases hn : normalize_ingredient_group r.main_ingredient with
  | some g =>
    rw [hn] at h
    obtain rfl := Option.some.inj h
    intro s hs
    cases hs
  | none =>
    rw [hn] at h
    cases hmi : r.main_ingredient with
    | some raw =>
      rw [hmi] at h
      obtain rfl := Option.some.inj h
      intro s hs
      cases hs
    | none =>
      rw [hmi] at h
      cases h

theorem group_go_cons_found {r : Recipe} {rs : List Recipe}
    {m : List (GroupKey × Nat)} {n v0 : Nat}
    (hlook : lookupGroup m (group_key_at r n) = some v0) :
    group_table_go (r :: rs) m n =
      (v0 :: (group_table_go rs m n).1, (group_table_go rs m n).2) := by
  simp only [group_table_go, hlook]

theorem group_go_cons_new {r : Recipe} {rs : List Recipe}
    {m : List (GroupKey × Nat)} {n : Nat}
    (hlook : lookupGroup m (group_key_at r n) = none) :
    group_table_go (r :: rs) m n =
      (n :: (group_table_go rs (m ++ [(group_key_at r n, n)]) (n + 1)).1,
       (group_table_go rs (m ++ [(group_key_at r n, n)]) (n + 1)).2) := by
  simp only [group_table_go, hlook]

/-- Induction workhorse for C6: the loop preserves `GInv`, only extends
the map, and every emitted id is characterized — a pure-keyed candidate
reads the final map at its key, while a `none`-keyed candidate receives
an id no other candidate receives. -/
theorem group_go_spec : ∀ (rs : List Recipe) (m : List (GroupKey × Nat))
    (n : Nat), GInv m n →
    GInv (group_table_go rs m n).2.2 (group_table_go rs m n).2.1 ∧
    m <+: (group_table_go rs m n).2.2 ∧
    n ≤ (group_table_go rs m n).2.1 ∧
    (group_table_go rs m n).1.length = rs.length ∧
    (∀ i r_i k, rs.get? i = some r_i → pure_group_key r_i = some k →
       ∃ v, (group_table_go rs m n).1.get? i = some v ∧
            lookupGroup (group_table_go rs m n).2.2 k = some v) ∧
    (∀ i r_i, rs.get? i = some r_i → pure_group_key r_i = none →
       ∃ v, (group_table_go rs m n).1.get? i = some v ∧ n ≤ v ∧
            (GroupKey.noneKey v, v) ∈ (group_table_go rs m n).2.2 ∧
            (∀ j, j ≠ i → (group_table_go rs m n).1.get? j ≠ some v)) := by
  intro rs
  induction rs with
  | nil =>
    intro m n hInv
    refine ⟨hInv, List.prefix_refl m, le_refl n, rfl, ?_, ?_⟩
    · intro i r_i k hi
      cases hi
    · intro i r_i hi
      cases hi
  | cons r rs ih =>
    intro m n hInv
    obtain ⟨hval, hkeys, hnonb⟩ := hInv
    have hvals_lt : ∀ v, v ∈ m.map Prod.snd → v < n := by
      intro v hv
      rw [hval] at hv
      exact List.mem_range.mp hv
    cases hlook : lookupGroup m (group_key_at r n) with
    | some v0 =>
      rw [group_go_cons_found hlook]
      obtain ⟨hInvR, hpreR, hnR, hlenR, hpureR, hnoneR⟩ :=
        ih m n ⟨hval, hkeys, hnonb⟩
      obtain ⟨hIv, hIk, hIn⟩ := hInvR
      have hv0m : (group_key_at r n, v0) ∈ m := lookupGroup_some_mem hlook
      have hv0lt : v0 < n := hvals_lt v0 (List.mem_map.mpr ⟨_, hv0m, rfl⟩)
      refine ⟨⟨hIv, hIk, hIn⟩, hpreR, hnR, by simp [hlenR], ?_, ?_⟩
      · intro i r_i k hi hk
        cases i with
        | zero =>
          obtain rfl : r = r_i := Option.some.inj hi
          have hkey : group_key_at r n = k := group_key_at_pure_some hk n
          refine ⟨v0, rfl, ?_⟩
          apply lookupGroup_persists hpreR hIk
          rw [← hkey]
          exact hlook
        | succ i' =>
          exact hpureR i' r_i k hi hk
      · intro i r_i hi hkn
        cases i with
        | zero =>
          obtain rfl : r = r_i := Option.some.inj hi
          exfalso
          have hkey : group_key_at r n = .noneKey n :=
            group_key_at_pure_none hkn n
          rw [hkey] at hv0m
          exact absurd (hnonb n (List.mem_map.mpr ⟨_, hv0m, rfl⟩))
            (lt_irrefl n)
        | succ i' =>
          obtain ⟨v, hvi, hnv, hvmem, hvuniq⟩ := hnoneR i' r_i hi hkn
          refine ⟨v, hvi, hnv, hvmem, ?_⟩
          intro j hj
          cases j with
          | zero =>
            intro hc
            have hc' : v0 = v := Option.some.inj hc
            omega
          | succ j' =>
            exact hvuniq j' (fun hh => hj (by rw [hh]))
    | none =>
      have hknotin : group_key_at r n ∉ m.map Prod.fst :=
        lookupGroup_none_key hlook
      have hInv' : GInv (m ++ [(group_key_at r n, n)]) (n + 1) := by
        refine ⟨?_, ?_, ?_⟩
        · rw [List.map_append, hval, List.range_succ]
          rfl
        · rw [List.map_append]
          simp [List.nodup_append, hkeys, hknotin]
        · intro s hs
          rw [List.map_append] at hs
          rcases List.mem_append.mp hs with hs | hs
          · exact Nat.lt_succ_of_lt (hnonb s hs)
          · have hkeq : GroupKey.noneKey s = group_key_at r n := by
              simpa using hs
            cases hpk : pure_group_key r with
            | some k =>
              exfalso
              apply pure_group_key_shape hpk s
              rw [group_key_at_pure_some hpk n] at hkeq
              exact hkeq.symm
            | none =>
              have hnn : GroupKey.noneKey s = GroupKey.noneKey n := by
                rw [group_key_at_pure_none hpk n] at hkeq
                exact hkeq
              rw [GroupKey.noneKey.inj hnn]
              exact Nat.lt_succ_self n
      rw [group_go_cons_new hlook]
      obtain ⟨hInvR, hpreR, hnR, hlenR, hpureR, hnoneR⟩ :=
        ih (m ++ [(group_key_at r n, n)]) (n + 1) hInv'
      obtain ⟨hIv, hIk, hIn⟩ := hInvR
      have hpre : m <+:
          (group_table_go rs (m ++ [(group_key_at r n, n)]) (n + 1)).2.2 :=
        (List.prefix_append m [(group_key_at r n, n)]).trans hpreR
      have hkeymem : (group_key_at r n, n) ∈
          (group_table_go rs (m ++ [(group_key_at r n, n)]) (n + 1)).2.2 :=
        hpreR.subset (by simp)
      have hMvals :
          (((group_table_go rs (m ++ [(group_key_at r n, n)]) (n + 1)).2.2).map
            Prod.snd).Nodup := by
        rw [hIv]
        exact List.nodup_range _
      refine ⟨⟨hIv, hIk, hIn⟩, hpre, le_trans (Nat.le_succ n) hnR,
        by simp [hlenR], ?_, ?_⟩
      · intro i r_i k hi hk
        cases i with
        | zero =>
          obtain rfl : r = r_i := Option.some.inj hi
          have hkey : group_key_at r n = k := group_key_at_pure_some hk n
          refine ⟨n, rfl, ?_⟩
          apply lookupGroup_of_mem hIk
          rw [← hkey]
          exact hkeymem
        | succ i' =>
          exact hpureR i' r_i k hi hk
      · intro i r_i hi hkn
        cases i with
        | zero =>
          obtain rfl : r = r_i := Option.some.inj hi
          have hkey : group_key_at r n = .noneKey n :=
            group_key_at_pure_none hkn n
          have hnonemem : (GroupKey.noneKey n, n) ∈
              (group_table_go rs (m ++ [(group_key_at r n, n)]) (n + 1)).2.2 := by
            rw [← hkey]
            exact hkeymem
          refine ⟨n, rfl, le_refl n, hnonemem, ?_⟩
          intro j hj
          cases j with
          | zero => exact absurd rfl hj
          | succ j' =>
            intro hc
            have hc' : (group_table_go rs
                (m ++ [(group_key_at r n, n)]) (n + 1)).1.get? j' = some n := hc
            cases hjr : rs.get? j' with
            | none =>
              have hnone2 : (group_table_go rs
                  (m ++ [(group_key_at r n, n)]) (n + 1)).1.get? j' = none := by
                apply List.get?_eq_none.mpr
                rw [hlenR]
                exact List.get?_eq_none.mp hjr
              rw [hnone2] at hc'
              cases hc'
            | some r_j =>
              cases hpj : pure_group_key r_j with
              | some k_j =>
                obtain ⟨w, hw, hwlook⟩ := hpureR j' r_j k_j hjr hpj
                rw [hw] at hc'
                have hwn : w = n := Option.some.inj hc'
                have hwmem := lookupGroup_some_mem hwlook
                rw [hwn] at hwmem
                exact pure_group_key_shape hpj n
                  (values_nodup_key_eq hMvals hwmem hnonemem)
              | none =>
                obtain ⟨w, hw, hnw, hwmem, hwuniq⟩ := hnoneR j' r_j hjr hpj
                rw [hw] at hc'
                have : w = n := Option.some.inj hc'
                omega
        | succ i' =>
          obtain ⟨v, hvi, hnv, hvmem, hvuniq⟩ := hnoneR i' r_i hi hkn
          refine ⟨v, hvi, le_trans (Nat.le_succ n) hnv, hvmem, ?_⟩
          intro j hj
          cases j with
          | zero =>
            intro hc
            have hc' : n = v := Option.some.inj hc
            omega
          | succ j' =>
            exact hvuniq j' (fun hh => hj (by rw [hh]))

/-- C6: in the ingredient-group table of any candidate pool, two
distinct candidates receive the same group id exactly when they share a
position-independent classification key — the same canonical group name,
or the same lowercased/stripped unmapped-but-present primary
ingredient; a candidate with no primary ingredient (whose key is `none`)
shares its id with no other candidate, not even another one with no
ingredient. -/
theorem C6_group_ids (cs : List Recipe) (i j : Nat) (hij : i ≠ j)
    (ri rj : Recipe) (hi : cs.get? i = some ri) (hj : cs.get? j = some rj) :
    ((build_ingredient_group_table cs).1.get? i =
       (build_ingredient_group_table cs).1.get? j) ↔
      (∃ k, pure_group_key ri = some k ∧ pure_group_key rj = some k) := by
  unfold build_ingredient_group_table
  have hInv0 : GInv [] 0 :=
    ⟨rfl, List.nodup_nil, fun s hs => absurd hs (List.not_mem_nil _)⟩
  obtain ⟨hInvM, hpreM, hnM, hlen, hpure, hnone⟩ := group_go_spec cs [] 0 hInv0
  obtain ⟨hIv, hIk, hIn⟩ := hInvM
  have hMvals : (((group_table_go cs [] 0).2.2).map Prod.snd).Nodup := by
    rw [hIv]
    exact List.nodup_range _
  cases hki : pure_group_key ri with
  | some ki =>
    cases hkj : pure_group_key rj with
    | some kj =>
      obtain ⟨vi, hvi, hlooki⟩ := hpure i ri ki hi hki
      obtain ⟨vj, hvj, hlookj⟩ := hpure j rj kj hj hkj
      rw [hvi, hvj]
      constructor
      · intro heq
        have hveq : vi = vj := Option.some.inj heq
        have hmemi := lookupGroup_some_mem hlooki
        have hmemj := lookupGroup_some_mem hlookj
        rw [← hveq] at hmemj
        have hkij : ki = kj := values_nodup_key_eq hMvals hmemi hmemj
        exact ⟨ki, rfl, by rw [← hkij]⟩
      · rintro ⟨k, hk1, hk2⟩
        have hik : ki = k := Option.some.inj hk1
        have hjk : kj = k := Option.some.inj hk2
        rw [hik] at hlooki
        rw [hjk] at hlookj
        rw [Option.some.inj (hlooki.symm.trans hlookj)]
    | none =>
      obtain ⟨vj, hvj, hnvj, hmemj, huniqj⟩ := hnone j rj hj hkj
      constructor
      · intro heq
        exact absurd (heq.trans hvj) (huniqj i hij)
      · rintro ⟨k, hk1, hk2⟩
        cases hk2
  | none =>
    obtain ⟨vi, hvi, hnvi, hmemi, huniqi⟩ := hnone i ri hi hki
    constructor
    · intro heq
      exact absurd (heq.symm.trans hvi) (huniqi j (fun h => hij h.symm))
    · rintro ⟨k, hk1, hk2⟩
      cases hk1

/-- Candidate pool of the C6 witness: two poultry recipes under
different raw spellings, and one recipe with no primary ingredient. -/
def c6pool : List Recipe :=
  [{ name := "Chicken Tikka", main_ingredient := some "Chicken" },
   { name := "Roast Thighs", main_ingredient := some "chicken thighs" },
   { name := "Mystery Stew" }]

/-- Witness for C6: the two poultry candidates share an id; the
no-ingredient candidate shares an id with neither. -/
theorem C6_group_ids_witness :
    ((build_ingredient_group_table c6pool).1.get? 0 =
       (build_ingredient_group_table c6pool).1.get? 1) ∧
    ¬ ((build_ingredient_group_table c6pool).1.get? 0 =
       (build_ingredient_group_table c6pool).1.get? 2) := by
  constructor
  · exact (C6_group_ids c6pool 0 1 (by decide)
      { name := "Chicken Tikka", main_ingredient := some "Chicken" }
      { name := "Roast Thighs", main_ingredient := some "chicken thighs" }
      rfl rfl).mpr ⟨.group "poultry", by decide, by decide⟩
  · intro h
    obtain ⟨k, hk1, hk2⟩ := (C6_group_ids c6pool 0 2 (by decide)
      { name := "Chicken Tikka", main_ingredient := some "Chicken" }
      { name := "Mystery Stew" } rfl rfl).mp h
    rw [show pure_group_key { name := "Mystery Stew" } = none from rfl] at hk2
    cases hk2

end MealPlanner
